import Mathlib

/-
  Verification of the inet motif-counting engine (src/inet/motifs.py,
  src/inet/utils.py) against its natural-language specification.

  The embedding models:
  * MotifCounter dictionaries as association lists from string keys to
    (found, tested) entries, with the three-phase merge of
    MotifCounter.__add__ (common keys summed, then keys only in the left
    operand, then keys only in the right operand);
  * adjacency matrices as functions Nat -> Nat -> Nat together with an
    explicit size, counts realised as Finset cards and sums over
    Finset.range, mirroring the numpy expressions of IIMotifCounter,
    EIMotifCounter and IIConMotifCounter line by line;
  * the numpy slicing lambdas of utils.py, including basic-slice clamping
    and fancy-index bounds checking.
-/

namespace Inet

/-- One value of a MotifCounter dictionary: the pair stored under a motif
key, as written by `__setitem__(key, dict(tested = ..., found = ...))`. -/
structure Entry where
  found : Nat
  tested : Nat
deriving DecidableEq, Repr

/-- A MotifCounter object: a dictionary from motif keys to entries,
modelled as an association list (keys produced by the counters are
distinct; lookup takes the first binding). -/
abbrev Tally := List (String × Entry)

/-- Dictionary lookup, `self[key]` guarded by `key in self`. -/
def lookupT : Tally → String → Option Entry
  | [], _ => none
  | (k', e) :: t, k => if k' = k then some e else lookupT t k

/-- Fieldwise sum of two entries, as in the common-key branch of
`MotifCounter.__add__`. -/
def mergeEntry (x y : Entry) : Entry :=
  { found := x.found + y.found, tested := x.tested + y.tested }

/-- Source `MotifCounter.__add__`: first the keys common to both operands with
summed fields, then the keys only in `self` passed through, then the keys
only in the other operand passed through. -/
def addT (a b : Tally) : Tally :=
  (a.filterMap (fun p =>
      match lookupT b p.1 with
      | some y => some (p.1, mergeEntry p.2 y)
      | none => none))
    ++ a.filter (fun p => (lookupT b p.1).isNone)
    ++ b.filter (fun p => (lookupT a p.1).isNone)

/-- The merge of two optional entries, describing one key of a sum. -/
def mergeOpt : Option Entry → Option Entry → Option Entry
  | some x, some y => some (mergeEntry x y)
  | some x, none => some x
  | none, some y => some y
  | none, none => none

/-- Equality of tallies in the sense of the spec: the same key set with
the same found and tested at every key. -/
def eqT (s t : Tally) : Prop := ∀ k, lookupT s k = lookupT t k

/-- The per-key invariant of the data model: found does not exceed tested
at any key of the tally. -/
def goodT (t : Tally) : Prop :=
  ∀ k e, lookupT t k = some e → e.found ≤ e.tested

/-- An adjacency matrix as an unbounded entry function; all counters pair
it with an explicit size. -/
abbrev Mat := Nat → Nat → Nat

/-- The index grid of a square matrix of size n: all (row, column)
positions that numpy iterates over. -/
def grid (n : Nat) : Finset (Nat × Nat) :=
  Finset.range n ×ˢ Finset.range n

/-- Source `matrix[np.where(matrix == v)].size`: the number of entries equal to
v. -/
def countEq (n : Nat) (M : Mat) (v : Nat) : Nat :=
  ((grid n).filter (fun p => M p.1 p.2 = v)).card

/-- The loop of `IIMotifCounter.read_matrix` over `np.where(matrix == 3)`
testing `matrix[post, pre] == 1`: the number of positions (i, j) with
entry 3 whose mirror entry is 1. -/
def count3m1 (n : Nat) (M : Mat) : Nat :=
  ((grid n).filter (fun p => M p.1 p.2 = 3 ∧ M p.2 p.1 = 1)).card

/-- Source `syn_chem` of `IIMotifCounter.read_matrix`: entries equal to 1 plus
entries equal to 3. -/
def syn_chem (n : Nat) (M : Mat) : Nat := countEq n M 1 + countEq n M 3

/-- Source `syn_elec` of `IIMotifCounter.read_matrix`: entries equal to 2 plus
entries equal to 3. -/
def syn_elec (n : Nat) (M : Mat) : Nat := countEq n M 2 + countEq n M 3

/-- Source `syn_c1e` after the loop: entries equal to 3, incremented once more
for every 3-entry whose mirror entry is 1. -/
def syn_c1e (n : Nat) (M : Mat) : Nat := countEq n M 3 + count3m1 n M

/-- Source `syn_c2e` after the loop: the number of 3-entries whose mirror entry
is 1. -/
def syn_c2e (n : Nat) (M : Mat) : Nat := count3m1 n M

/-- The chemical-only 0/1 matrix A of `read_matrix`: entries equal to 3
set to 1, entries equal to 2 set to 0, all others kept. -/
def chemOf (M : Mat) : Mat := fun i j =>
  if M i j = 3 then 1 else if M i j = 2 then 0 else M i j

/-- Source `np.matrix.sum()` over the leading n-by-n block. -/
def matSum (n : Nat) (M : Mat) : Nat :=
  ∑ i in Finset.range n, ∑ j in Finset.range n, M i j

/-- Matrix product restricted to the leading n-by-n block. -/
def mulM (n : Nat) (A B : Mat) : Mat := fun i j =>
  ∑ k in Finset.range n, A i k * B k j

/-- Source `np.sum(J.diagonal())`: the trace of the leading n-by-n block. -/
def trM (n : Nat) (M : Mat) : Nat := ∑ i in Finset.range n, M i i

/-- Source `A.T`: the transpose. -/
def transM (M : Mat) : Mat := fun i j => M j i

/-- Source `syn_c2`: half the trace of A * A. -/
def syn_c2 (n : Nat) (M : Mat) : Nat :=
  trM n (mulM n (chemOf M) (chemOf M)) / 2

/-- Source `syn_con`: (sum(A * A.T) - sum(A)) / 2. -/
def syn_con (n : Nat) (M : Mat) : Nat :=
  (matSum n (mulM n (chemOf M) (transM (chemOf M))) - matSum n (chemOf M)) / 2

/-- Source `syn_div`: (sum(A.T * A) - sum(A)) / 2. -/
def syn_div (n : Nat) (M : Mat) : Nat :=
  (matSum n (mulM n (transM (chemOf M)) (chemOf M)) - matSum n (chemOf M)) / 2

/-- Source `syn_lin`: sum(A * A) minus the trace of A * A. -/
def syn_lin (n : Nat) (M : Mat) : Nat :=
  matSum n (mulM n (chemOf M) (chemOf M)) - trM n (mulM n (chemOf M) (chemOf M))

/-- Source `n_chem = n * (n - 1)`. -/
def n_chem (n : Nat) : Nat := n * (n - 1)

/-- Source `n_elec = n * (n - 1) / 2`. -/
def n_elec (n : Nat) : Nat := n * (n - 1) / 2

/-- Source `n_c1e = n_elec * 2`. -/
def n_c1e (n : Nat) : Nat := n_elec n * 2

/-- Source `n_c2e = n_elec`. -/
def n_c2e (n : Nat) : Nat := n_elec n

/-- Source `n_c2 = n * (n - 1) / 2`. -/
def n_c2 (n : Nat) : Nat := n * (n - 1) / 2

/-- Source `n_con = n * (n - 1) * (n - 2) / 2`. -/
def n_con (n : Nat) : Nat := n * (n - 1) * (n - 2) / 2

/-- Source `n_div = n * (n - 1) * (n - 2) / 2`. -/
def n_div (n : Nat) : Nat := n * (n - 1) * (n - 2) / 2

/-- Source `n_lin = n * (n - 1) * (n - 2)`. -/
def n_lin (n : Nat) : Nat := n * (n - 1) * (n - 2)

/-- The dictionary produced by `IIMotifCounter.read_matrix` on a square
matrix of size n: the eight motif keys with their found and tested
values. -/
def IIreadTally (n : Nat) (M : Mat) : Tally :=
  [("ii_chem", ⟨syn_chem n M, n_chem n⟩),
   ("ii_elec", ⟨syn_elec n M, n_elec n⟩),
   ("ii_c1e", ⟨syn_c1e n M, n_c1e n⟩),
   ("ii_c2e", ⟨syn_c2e n M, n_c2e n⟩),
   ("ii_c2", ⟨syn_c2 n M, n_c2 n⟩),
   ("ii_con", ⟨syn_con n M, n_con n⟩),
   ("ii_div", ⟨syn_div n M, n_div n⟩),
   ("ii_lin", ⟨syn_lin n M, n_lin n⟩)]

/-- A shaped matrix as handed to the counters: explicit row and column
counts plus the entry function. -/
structure NMat where
  rows : Nat
  cols : Nat
  entry : Mat

/-- Source `IIMotifCounter.read_matrix` with its shape guard: a non-square
matrix raises (modelled as `Except.error` carrying the message of the
IOError that the spec names ShapeError); a square one yields the motif
dictionary. -/
def IIread (m : NMat) : Except String Tally :=
  if m.rows = m.cols then Except.ok (IIreadTally m.rows m.entry)
  else Except.error "matrix must be a square matrix!"

/-- Build an entry function from a list of rows (missing entries 0). -/
def matOf (rows : List (List Nat)) : Mat := fun i j =>
  (rows.getD i []).getD j 0

/-- The matrix entries lie in the connection-code alphabet on the counted
block. -/
def okCodes (n : Nat) (M : Mat) : Prop := ∀ i < n, ∀ j < n, M i j ≤ 3

/-- The diagonal of the counted block is zero. -/
def zeroDiag (n : Nat) (M : Mat) : Prop := ∀ i < n, M i i = 0

/-- The electrical component of a connection code. -/
def elecCode (v : Nat) : Prop := v = 2 ∨ v = 3

/-- The chemical component of a connection code: entry 1 or 3. -/
def chemCode (v : Nat) : Prop := v = 1 ∨ v = 3

instance decElecCode : DecidablePred elecCode := fun v => by
  unfold elecCode; infer_instance

instance decChemCode : DecidablePred chemCode := fun v => by
  unfold chemCode; infer_instance

instance decOkCodes (n : Nat) (M : Mat) : Decidable (okCodes n M) := by
  unfold okCodes; infer_instance

instance decZeroDiag (n : Nat) (M : Mat) : Decidable (zeroDiag n M) := by
  unfold zeroDiag; infer_instance

/-- No unordered pair carries an electrical code in both directions: the
one-direction encoding convention of the dataset for gap junctions. -/
def oneWayElec (n : Nat) (M : Mat) : Prop :=
  ∀ i < n, ∀ j < n, i ≠ j → ¬(elecCode (M i j) ∧ elecCode (M j i))

instance decOneWayElec (n : Nat) (M : Mat) : Decidable (oneWayElec n M) := by
  unfold oneWayElec
  infer_instance

/-- Stated from the claim for comparison with the source: the number of
unordered pairs of nodes whose two entries are both 3. -/
def bothThreePairs (n : Nat) (M : Mat) : Nat :=
  ((grid n).filter (fun p => p.1 < p.2 ∧ M p.1 p.2 = 3 ∧ M p.2 p.1 = 3)).card

/-- The number of unordered pairs of nodes with one entry 3 and the
mirror entry 1, each qualifying pair counted once. -/
def mixedThreeOnePairs (n : Nat) (M : Mat) : Nat :=
  ((grid n).filter (fun p => p.1 < p.2 ∧
    ((M p.1 p.2 = 3 ∧ M p.2 p.1 = 1) ∨ (M p.2 p.1 = 3 ∧ M p.1 p.2 = 1)))).card

/-- Stated from the claim for comparison with the source: the number of
choices of an unordered pair of distinct sources and a target distinct
from both, with both source-to-target entries carrying a chemical
component. -/
def convTriples (n : Nat) (M : Mat) : Nat :=
  (((grid n) ×ˢ Finset.range n).filter (fun x =>
    x.1.1 < x.1.2 ∧ x.2 ≠ x.1.1 ∧ x.2 ≠ x.1.2 ∧
    chemCode (M x.1.1 x.2) ∧ chemCode (M x.1.2 x.2))).card

/-! ## Lemmas about the tally merge -/

theorem lookupT_append (s t : Tally) (k : String) :
    lookupT (s ++ t) k = (lookupT s k).or (lookupT t k) := by
  induction s with
  | nil => simp [lookupT]
  | cons p rest ih =>
    obtain ⟨k', e⟩ := p
    by_cases h : k' = k <;> simp [lookupT, h, ih]

theorem lookupT_filterMap_merge (b a : Tally) (k : String) :
    lookupT (a.filterMap (fun p =>
      match lookupT b p.1 with
      | some y => some (p.1, mergeEntry p.2 y)
      | none => none)) k =
    match lookupT a k, lookupT b k with
    | some x, some y => some (mergeEntry x y)
    | _, _ => none := by
  induction a with
  | nil => cases lookupT b k <;> rfl
  | cons p rest ih =>
    obtain ⟨k', e⟩ := p
    cases hb : lookupT b k' with
    | none =>
      by_cases h : k' = k
      · subst h
        rw [List.filterMap_cons]
        simp only [hb]
        rw [ih]
        simp [lookupT, hb]
      · rw [List.filterMap_cons]
        simp only [hb]
        rw [ih]
        simp [lookupT, h]
    | some y =>
      by_cases h : k' = k
      · subst h
        rw [List.filterMap_cons]
        simp only [hb]
        simp [lookupT, hb]
      · rw [List.filterMap_cons]
        simp only [hb]
        rw [lookupT, if_neg h, ih]
        simp [lookupT, h]

theorem lookupT_filter_isNone (b a : Tally) (k : String) :
    lookupT (a.filter (fun p => (lookupT b p.1).isNone)) k =
      if (lookupT b k).isNone then lookupT a k else none := by
  induction a with
  | nil => simp [lookupT]
  | cons p rest ih =>
    obtain ⟨k', e⟩ := p
    by_cases h : k' = k
    · subst h
      cases hc : (lookupT b k').isNone <;>
        simp [List.filter_cons, hc, lookupT, ih]
    · cases hc : (lookupT b k').isNone <;>
        simp [List.filter_cons, hc, lookupT, h, ih]

theorem lookupT_addT (a b : Tally) (k : String) :
    lookupT (addT a b) k = mergeOpt (lookupT a k) (lookupT b k) := by
  unfold addT
  rw [lookupT_append, lookupT_append, lookupT_filterMap_merge,
      lookupT_filter_isNone, lookupT_filter_isNone]
  cases ha : lookupT a k <;> cases hb : lookupT b k <;>
    simp [mergeOpt, ha, hb]

/-- Claim C4: combining motif tallies is associative and commutative
field-by-field, where tallies are equal when they have the same key set
with the same found and tested at every key. -/
theorem MotifCounter_add_assoc_comm :
    (∀ t1 t2 t3 : Tally, eqT (addT (addT t1 t2) t3) (addT t1 (addT t2 t3))) ∧
    (∀ t1 t2 : Tally, eqT (addT t1 t2) (addT t2 t1)) := by
  constructor
  · intro t1 t2 t3 k
    rw [lookupT_addT, lookupT_addT, lookupT_addT, lookupT_addT]
    cases lookupT t1 k <;> cases lookupT t2 k <;> cases lookupT t3 k <;>
      simp [mergeOpt, mergeEntry, Nat.add_assoc]
  · intro t1 t2 k
    rw [lookupT_addT, lookupT_addT]
    cases lookupT t1 k <;> cases lookupT t2 k <;>
      simp [mergeOpt, mergeEntry, Nat.add_comm]

/-- Claim C5: the combination of two tallies has the union of the key sets;
keys present in both operands get the sums of found and tested, keys
present in exactly one operand pass through unchanged. -/
theorem MotifCounter_add_union (a b : Tally) (k : String) :
    (lookupT (addT a b) k = none ↔ lookupT a k = none ∧ lookupT b k = none) ∧
    (∀ x y : Entry, lookupT a k = some x → lookupT b k = some y →
      lookupT (addT a b) k =
        some { found := x.found + y.found, tested := x.tested + y.tested }) ∧
    (∀ x : Entry, lookupT a k = some x → lookupT b k = none →
      lookupT (addT a b) k = some x) ∧
    (∀ y : Entry, lookupT a k = none → lookupT b k = some y →
      lookupT (addT a b) k = some y) := by
  refine ⟨?_, ?_, ?_, ?_⟩
  · rw [lookupT_addT]
    cases ha : lookupT a k <;> cases hb : lookupT b k <;> simp [mergeOpt]
  · intro x y hx hy
    rw [lookupT_addT, hx, hy]; rfl
  · intro x hx hb
    rw [lookupT_addT, hx, hb]; rfl
  · intro y ha hy
    rw [lookupT_addT, ha, hy]; rfl

/-- Witness for C5: a concrete pair of tallies with one shared key, one
key only in the left operand is absent here, one key only in the right
operand, and one absent key. -/
theorem MotifCounter_add_union_witness :
    lookupT (addT [("ei", ⟨1, 2⟩)] [("ei", ⟨3, 4⟩), ("e2i", ⟨5, 6⟩)]) "ei"
        = some ⟨4, 6⟩ ∧
    lookupT (addT [("ei", ⟨1, 2⟩)] [("ei", ⟨3, 4⟩), ("e2i", ⟨5, 6⟩)]) "e2i"
        = some ⟨5, 6⟩ ∧
    lookupT (addT [("ei", ⟨1, 2⟩)] [("ei", ⟨3, 4⟩), ("e2i", ⟨5, 6⟩)]) "zz"
        = none := by
  refine ⟨?_, ?_, ?_⟩
  · have h := (MotifCounter_add_union [("ei", ⟨1, 2⟩)]
      [("ei", ⟨3, 4⟩), ("e2i", ⟨5, 6⟩)] "ei").2.1 ⟨1, 2⟩ ⟨3, 4⟩
      (by decide) (by decide)
    simpa using h
  · exact (MotifCounter_add_union [("ei", ⟨1, 2⟩)]
      [("ei", ⟨3, 4⟩), ("e2i", ⟨5, 6⟩)] "e2i").2.2.2 ⟨5, 6⟩
      (by decide) (by decide)
  · exact (MotifCounter_add_union [("ei", ⟨1, 2⟩)]
      [("ei", ⟨3, 4⟩), ("e2i", ⟨5, 6⟩)] "zz").1.mpr ⟨by decide, by decide⟩

/-! ## Combinatorial helpers for the recurrent counter -/

theorem mem_grid (n : Nat) (p : Nat × Nat) :
    p ∈ grid n ↔ p.1 < n ∧ p.2 < n := by
  simp [grid, Finset.mem_product]

theorem sq_sub (n : Nat) : n * n - n = n * (n - 1) := by
  have h : n * n = n * (n - 1) + n := by
    cases n with
    | zero => rfl
    | succ m => rw [Nat.succ_sub_one]; ring
  rw [h, Nat.add_sub_cancel]

theorem card_offDiag_range (n : Nat) :
    ((Finset.range n).offDiag).card = n * (n - 1) := by
  rw [Finset.offDiag_card, Finset.card_range, sq_sub]

theorem filter_pred_subset_offDiag (n : Nat) (Q : Nat × Nat → Prop)
    [DecidablePred Q] (h : ∀ i < n, ¬ Q (i, i)) :
    (grid n).filter Q ⊆ (Finset.range n).offDiag := by
  intro p hp
  rw [Finset.mem_filter] at hp
  have hg := (mem_grid n p).mp hp.1
  rw [Finset.mem_offDiag]
  refine ⟨Finset.mem_range.mpr hg.1, Finset.mem_range.mpr hg.2, fun he => ?_⟩
  have hpp : p = (p.1, p.1) := by
    rw [Prod.ext_iff]; exact ⟨rfl, he.symm⟩
  exact h p.1 hg.1 (hpp ▸ hp.2)

theorem card_two_subsets_le (n : Nat) (s t : Finset (Nat × Nat))
    (hs : s ⊆ (Finset.range n).offDiag) (ht : t ⊆ (Finset.range n).offDiag)
    (hdisj : Disjoint s t) :
    s.card + t.card ≤ n * (n - 1) := by
  rw [← Finset.card_union_of_disjoint hdisj]
  calc (s ∪ t).card ≤ ((Finset.range n).offDiag).card :=
        Finset.card_le_card (Finset.union_subset hs ht)
    _ = n * (n - 1) := card_offDiag_range n

theorem card_asym_two_le (n : Nat) (s : Finset (Nat × Nat))
    (hsub : s ⊆ (Finset.range n).offDiag)
    (hasym : ∀ p ∈ s, (p.2, p.1) ∉ s) :
    s.card * 2 ≤ n * (n - 1) := by
  classical
  have himg : (s.image Prod.swap).card = s.card :=
    Finset.card_image_of_injective _ Prod.swap_injective
  have hdisj : Disjoint s (s.image Prod.swap) := by
    rw [Finset.disjoint_left]
    intro p hp hq
    rcases Finset.mem_image.mp hq with ⟨q, hqs, hqe⟩
    have hqp : q = (p.2, p.1) := by
      have h2 := congrArg Prod.swap hqe
      simpa using h2
    exact hasym p hp (hqp ▸ hqs)
  have hsubim : s.image Prod.swap ⊆ (Finset.range n).offDiag := by
    intro p hp
    rcases Finset.mem_image.mp hp with ⟨q, hqs, hqe⟩
    have hq := Finset.mem_offDiag.mp (hsub hqs)
    subst hqe
    exact Finset.mem_offDiag.mpr ⟨hq.2.1, hq.1, Ne.symm hq.2.2⟩
  have h := card_two_subsets_le n s (s.image Prod.swap) hsub hsubim hdisj
  omega

theorem card_asym_le_half (n : Nat) (s : Finset (Nat × Nat))
    (hsub : s ⊆ (Finset.range n).offDiag)
    (hasym : ∀ p ∈ s, (p.2, p.1) ∉ s) :
    s.card ≤ n * (n - 1) / 2 :=
  (Nat.le_div_iff_mul_le two_pos).mpr (card_asym_two_le n s hsub hasym)

theorem sum_le_one_eq_card {α : Type} [DecidableEq α] (s : Finset α)
    (f : α → Nat) (hf : ∀ a ∈ s, f a ≤ 1) :
    ∑ a in s, f a = (s.filter (fun a => f a = 1)).card := by
  classical
  rw [← Finset.sum_filter_add_sum_filter_not s (fun a => f a = 1) f]
  have h1 : ∑ a in s.filter (fun a => f a = 1), f a =
      (s.filter (fun a => f a = 1)).card := by
    rw [Finset.card_eq_sum_ones]
    exact Finset.sum_congr rfl (fun a ha => (Finset.mem_filter.mp ha).2)
  have h2 : ∑ a in s.filter (fun a => ¬ f a = 1), f a = 0 := by
    apply Finset.sum_eq_zero
    intro a ha
    have hm := Finset.mem_filter.mp ha
    have := hf a hm.1
    omega
  rw [h1, h2, Nat.add_zero]

theorem mul_pred_add (c : Nat) : c * (c - 1) + c = c * c := by
  cases c with
  | zero => rfl
  | succ m => rw [Nat.succ_sub_one]; ring

theorem sum_sq_sub_sum (n : Nat) (g : Nat → Nat) :
    (∑ k in Finset.range n, g k * g k) - (∑ k in Finset.range n, g k) =
      ∑ k in Finset.range n, g k * (g k - 1) := by
  have h : (∑ k in Finset.range n, g k * g k) =
      (∑ k in Finset.range n, g k * (g k - 1)) + ∑ k in Finset.range n, g k := by
    rw [← Finset.sum_add_distrib]
    exact Finset.sum_congr rfl (fun k _ => (mul_pred_add (g k)).symm)
  rw [h, Nat.add_sub_cancel]

theorem sum_div_two (n : Nat) (g : Nat → Nat) (h : ∀ k, 2 ∣ g k) :
    (∑ k in Finset.range n, g k) / 2 = ∑ k in Finset.range n, g k / 2 := by
  have hs : (∑ k in Finset.range n, g k) =
      (∑ k in Finset.range n, g k / 2) * 2 := by
    rw [Finset.sum_mul]
    exact Finset.sum_congr rfl (fun k _ => (Nat.div_mul_cancel (h k)).symm)
  rw [hs, Nat.mul_div_cancel _ two_pos]

/-- The column sum `Σ_i A[i, k]`. -/
def colSum (n : Nat) (A : Mat) (k : Nat) : Nat := ∑ i in Finset.range n, A i k

theorem matSum_mul_transpose (n : Nat) (A : Mat) :
    matSum n (mulM n A (transM A)) =
      ∑ k in Finset.range n, colSum n A k * colSum n A k := by
  unfold matSum mulM transM colSum
  calc ∑ i in Finset.range n, ∑ j in Finset.range n, ∑ k in Finset.range n,
          A i k * A j k
      = ∑ i in Finset.range n, ∑ k in Finset.range n, ∑ j in Finset.range n,
          A i k * A j k := Finset.sum_congr rfl (fun i _ => Finset.sum_comm)
    _ = ∑ k in Finset.range n, ∑ i in Finset.range n, ∑ j in Finset.range n,
          A i k * A j k := Finset.sum_comm
    _ = ∑ k in Finset.range n,
          (∑ i in Finset.range n, A i k) * ∑ j in Finset.range n, A j k :=
        Finset.sum_congr rfl (fun k _ => (Finset.sum_mul_sum _ _ _ _).symm)

theorem matSum_eq_sum_colSum (n : Nat) (A : Mat) :
    matSum n A = ∑ k in Finset.range n, colSum n A k := Finset.sum_comm

theorem chemOf_le_one (M : Mat) (i j : Nat) (h : M i j ≤ 3) :
    chemOf M i j ≤ 1 := by
  unfold chemOf
  split
  · exact le_refl 1
  · split
    · exact Nat.zero_le 1
    · omega

theorem chemOf_diag (M : Mat) (i : Nat) (h : M i i = 0) : chemOf M i i = 0 := by
  unfold chemOf
  rw [h]
  simp

theorem chemOf_eq_one (M : Mat) (i j : Nat) :
    chemOf M i j = 1 ↔ chemCode (M i j) := by
  unfold chemOf chemCode
  by_cases h3 : M i j = 3
  · simp [h3]
  · by_cases h2 : M i j = 2
    · simp [h3, h2]
    · simp [h3, h2]

theorem colSum_le (n : Nat) (A : Mat) (k : Nat) (hk : k < n)
    (h1 : ∀ i, i < n → A i k ≤ 1) (h0 : A k k = 0) :
    colSum n A k ≤ n - 1 := by
  unfold colSum
  have hmem : k ∈ Finset.range n := Finset.mem_range.mpr hk
  have hsplit := Finset.sum_erase_add (Finset.range n) (fun i => A i k) hmem
  have hbound : ∑ i in (Finset.range n).erase k, A i k ≤
      ((Finset.range n).erase k).card • 1 := by
    apply Finset.sum_le_card_nsmul
    intro i hi
    exact h1 i (Finset.mem_range.mp (Finset.mem_of_mem_erase hi))
  rw [Finset.card_erase_of_mem hmem, Finset.card_range, smul_eq_mul,
    Nat.mul_one] at hbound
  simp only [h0] at hsplit
  omega

theorem card_filter_swap (n : Nat) (Q : Nat × Nat → Prop) [DecidablePred Q]
    [DecidablePred (fun p : Nat × Nat => Q (p.2, p.1))] :
    ((grid n).filter Q).card =
      ((grid n).filter (fun p => Q (p.2, p.1))).card := by
  apply Finset.card_nbij' Prod.swap Prod.swap
  · intro p hp
    rw [Finset.mem_filter] at hp ⊢
    have hg := (mem_grid n p).mp hp.1
    exact ⟨(mem_grid n _).mpr ⟨hg.2, hg.1⟩, hp.2⟩
  · intro p hp
    rw [Finset.mem_filter] at hp ⊢
    have hg := (mem_grid n p).mp hp.1
    exact ⟨(mem_grid n _).mpr ⟨hg.2, hg.1⟩, hp.2⟩
  · intro p _
    simp
  · intro p _
    simp

theorem filter_eq_union_lt_gt (n : Nat) (Q : Nat × Nat → Prop) [DecidablePred Q]
    (hne : ∀ p ∈ grid n, Q p → p.1 ≠ p.2) :
    (grid n).filter Q =
      ((grid n).filter (fun p => p.1 < p.2 ∧ Q p)) ∪
      ((grid n).filter (fun p => p.2 < p.1 ∧ Q p)) := by
  ext p
  simp only [Finset.mem_filter, Finset.mem_union]
  constructor
  · rintro ⟨hg, hq⟩
    rcases Nat.lt_or_ge p.1 p.2 with h | h
    · exact Or.inl ⟨hg, h, hq⟩
    · refine Or.inr ⟨hg, ?_, hq⟩
      have := hne p hg hq
      omega
  · rintro (⟨hg, _, hq⟩ | ⟨hg, _, hq⟩) <;> exact ⟨hg, hq⟩

theorem card_split_lt_gt (n : Nat) (Q : Nat × Nat → Prop) [DecidablePred Q]
    (hne : ∀ p ∈ grid n, Q p → p.1 ≠ p.2) :
    ((grid n).filter Q).card =
      ((grid n).filter (fun p => p.1 < p.2 ∧ Q p)).card +
      ((grid n).filter (fun p => p.2 < p.1 ∧ Q p)).card := by
  rw [filter_eq_union_lt_gt n Q hne]
  apply Finset.card_union_of_disjoint
  rw [Finset.disjoint_left]
  rintro p hp hq
  have h1 := (Finset.mem_filter.mp hp).2.1
  have h2 := (Finset.mem_filter.mp hq).2.1
  omega

theorem count3m1_eq_mixedPairs (n : Nat) (M : Mat) :
    count3m1 n M = mixedThreeOnePairs n M := by
  unfold count3m1 mixedThreeOnePairs
  rw [card_split_lt_gt n _ (fun p _ hq => by
    intro he
    rw [he] at hq
    omega)]
  have hsplit : (grid n).filter (fun p => p.1 < p.2 ∧
      ((M p.1 p.2 = 3 ∧ M p.2 p.1 = 1) ∨ (M p.2 p.1 = 3 ∧ M p.1 p.2 = 1))) =
      ((grid n).filter (fun p => p.1 < p.2 ∧ M p.1 p.2 = 3 ∧ M p.2 p.1 = 1)) ∪
      ((grid n).filter (fun p => p.1 < p.2 ∧ M p.2 p.1 = 3 ∧ M p.1 p.2 = 1)) := by
    ext p
    simp only [Finset.mem_filter, Finset.mem_union]
    tauto
  rw [hsplit, Finset.card_union_of_disjoint]
  · congr 1
    have hswap := card_filter_swap n
      (fun p => p.2 < p.1 ∧ M p.1 p.2 = 3 ∧ M p.2 p.1 = 1)
    rw [hswap]
  · rw [Finset.disjoint_left]
    rintro p hp hq
    have h1 := (Finset.mem_filter.mp hp).2.2.1
    have h2 := (Finset.mem_filter.mp hq).2.2.2
    omega

/-! ## Claim C1: the electrical+two-chemical entry -/

/-- Claim C1 counterexample: on the 2-node matrix with both entries 3 the code
returns ii_c2e found = 0 although the matrix has exactly one unordered
pair with both entries 3, refuting the claimed count (and the claimed
found = 1 in particular). -/
theorem II_c2e_bothThree_counterexample :
    bothThreePairs 2 (matOf [[0, 3], [3, 0]]) = 1 ∧
    lookupT (IIreadTally 2 (matOf [[0, 3], [3, 0]])) "ii_c2e" =
      some { found := 0, tested := 1 } ∧
    (lookupT (IIreadTally 2 (matOf [[0, 3], [3, 0]])) "ii_c2e").map Entry.found ≠
      some (bothThreePairs 2 (matOf [[0, 3], [3, 0]])) := by
  refine ⟨by decide, by decide, by decide⟩

/-- Claim C1 amended: for every square matrix, the ii_c2e entry of the
recurrent counter has found equal to the number of unordered pairs with one
entry 3 and the mirror entry 1 (each qualifying pair counted once, a
chemical synapse riding in the direction opposite to the 3-coded one),
and tested equal to n * (n - 1) / 2; on the both-3 matrix this found is
0, not 1. -/
theorem II_c2e_mixed_pairs (n : Nat) (M : Mat) :
    lookupT (IIreadTally n M) "ii_c2e" =
      some { found := mixedThreeOnePairs n M, tested := n * (n - 1) / 2 } := by
  have h : lookupT (IIreadTally n M) "ii_c2e" =
      some { found := syn_c2e n M, tested := n_c2e n } := rfl
  rw [h]
  unfold syn_c2e n_c2e n_elec
  rw [count3m1_eq_mixedPairs]

/-! ## Claim C3: the all-zero matrix -/

theorem countEq_zeroMat (n v : Nat) (hv : v ≠ 0) :
    countEq n (fun _ _ => 0) v = 0 := by
  unfold countEq
  rw [Finset.card_eq_zero]
  apply Finset.filter_false_of_mem
  intro p _
  show ¬ (0 = v)
  omega

theorem count3m1_zeroMat (n : Nat) : count3m1 n (fun _ _ => 0) = 0 := by
  unfold count3m1
  rw [Finset.card_eq_zero]
  apply Finset.filter_false_of_mem
  intro p _
  show ¬ ((0 : Nat) = 3 ∧ (0 : Nat) = 1)
  simp

theorem chemOf_zeroMat : chemOf (fun _ _ => 0) = fun _ _ => 0 := by
  funext i j
  simp [chemOf]

theorem matSum_zeroMat (n : Nat) : matSum n (fun _ _ => 0) = 0 := by
  simp [matSum]

theorem mulM_zeroMat (n : Nat) :
    mulM n (fun _ _ => 0) (fun _ _ => 0) = fun _ _ => 0 := by
  funext i j
  simp [mulM]

theorem trM_zeroMat (n : Nat) : trM n (fun _ _ => 0) = 0 := by
  simp [trM]

/-- Claim C3: reading the all-zero n-by-n matrix yields found = 0 at every
motif key while the tested values are the closed-form denominators
depending on n alone; in particular at n = 0 and n = 1 every key holds
(found, tested) = (0, 0). -/
theorem II_zero_matrix_tallies :
    (∀ n : Nat, IIreadTally n (fun _ _ => 0) =
      [("ii_chem", ⟨0, n * (n - 1)⟩),
       ("ii_elec", ⟨0, n * (n - 1) / 2⟩),
       ("ii_c1e", ⟨0, 2 * (n * (n - 1) / 2)⟩),
       ("ii_c2e", ⟨0, n * (n - 1) / 2⟩),
       ("ii_c2", ⟨0, n * (n - 1) / 2⟩),
       ("ii_con", ⟨0, n * (n - 1) * (n - 2) / 2⟩),
       ("ii_div", ⟨0, n * (n - 1) * (n - 2) / 2⟩),
       ("ii_lin", ⟨0, n * (n - 1) * (n - 2)⟩)]) ∧
    IIreadTally 0 (fun _ _ => 0) =
      [("ii_chem", ⟨0, 0⟩), ("ii_elec", ⟨0, 0⟩), ("ii_c1e", ⟨0, 0⟩),
       ("ii_c2e", ⟨0, 0⟩), ("ii_c2", ⟨0, 0⟩), ("ii_con", ⟨0, 0⟩),
       ("ii_div", ⟨0, 0⟩), ("ii_lin", ⟨0, 0⟩)] ∧
    IIreadTally 1 (fun _ _ => 0) =
      [("ii_chem", ⟨0, 0⟩), ("ii_elec", ⟨0, 0⟩), ("ii_c1e", ⟨0, 0⟩),
       ("ii_c2e", ⟨0, 0⟩), ("ii_c2", ⟨0, 0⟩), ("ii_con", ⟨0, 0⟩),
       ("ii_div", ⟨0, 0⟩), ("ii_lin", ⟨0, 0⟩)] := by
  refine ⟨?_, by decide, by decide⟩
  intro n
  unfold IIreadTally syn_chem syn_elec syn_c1e syn_c2e syn_c2 syn_con
    syn_div syn_lin n_chem n_elec n_c1e n_c2e n_c2 n_con n_div n_lin
  rw [chemOf_zeroMat]
  have ht : transM (fun _ _ => 0) = fun _ _ => 0 := rfl
  rw [ht, mulM_zeroMat, matSum_zeroMat, trM_zeroMat,
    countEq_zeroMat n 1 (by omega), countEq_zeroMat n 2 (by omega),
    countEq_zeroMat n 3 (by omega), count3m1_zeroMat]
  norm_num [n_elec, Nat.mul_comm]

/-! ## Claim C2: the convergent count -/

theorem fiber_card_eq (n : Nat) (M : Mat) (k : Nat) :
    (((grid n ×ˢ Finset.range n).filter (fun x =>
        x.1.1 < x.1.2 ∧ x.2 ≠ x.1.1 ∧ x.2 ≠ x.1.2 ∧
        chemCode (M x.1.1 x.2) ∧ chemCode (M x.1.2 x.2))).filter
      (fun x => x.2 = k)).card =
    ((grid n).filter (fun p => p.1 < p.2 ∧ k ≠ p.1 ∧ k ≠ p.2 ∧
        chemCode (M p.1 k) ∧ chemCode (M p.2 k))).card ∨ ¬ k < n := by
  by_cases hk : k < n
  · left
    apply Finset.card_nbij (fun x => x.1)
    · intro x hx
      simp only [Finset.mem_filter, Finset.mem_product] at hx
      obtain ⟨⟨⟨hg, _⟩, hq⟩, hk2⟩ := hx
      subst hk2
      exact Finset.mem_filter.mpr ⟨hg, hq⟩
    · intro x hx y hy hxy
      rw [Finset.mem_coe, Finset.mem_filter] at hx hy
      exact Prod.ext hxy (hx.2.trans hy.2.symm)
    · intro p hp
      rw [Finset.mem_coe, Finset.mem_filter] at hp
      refine ⟨(p, k), ?_, rfl⟩
      rw [Finset.mem_coe, Finset.mem_filter, Finset.mem_filter,
        Finset.mem_product]
      exact ⟨⟨⟨hp.1, Finset.mem_range.mpr hk⟩, hp.2⟩, rfl⟩
  · right
    exact hk

theorem convTriples_eq_sum (n : Nat) (M : Mat) :
    convTriples n M = ∑ k in Finset.range n,
      ((grid n).filter (fun p => p.1 < p.2 ∧ k ≠ p.1 ∧ k ≠ p.2 ∧
        chemCode (M p.1 k) ∧ chemCode (M p.2 k))).card := by
  unfold convTriples
  have hmem : ∀ x ∈ (grid n ×ˢ Finset.range n).filter (fun x =>
      x.1.1 < x.1.2 ∧ x.2 ≠ x.1.1 ∧ x.2 ≠ x.1.2 ∧
      chemCode (M x.1.1 x.2) ∧ chemCode (M x.1.2 x.2)),
      x.2 ∈ Finset.range n := by
    intro x hx
    exact (Finset.mem_product.mp (Finset.mem_filter.mp hx).1).2
  rw [Finset.card_eq_sum_card_fiberwise hmem]
  apply Finset.sum_congr rfl
  intro k hk
  rcases fiber_card_eq n M k with h | h
  · exact h
  · exact absurd (Finset.mem_range.mp hk) h

theorem card_lt_pairs (n : Nat) (A : Mat) (k : Nat)
    (h1 : ∀ i, i < n → A i k ≤ 1) :
    ((grid n).filter (fun p => p.1 < p.2 ∧ A p.1 k = 1 ∧ A p.2 k = 1)).card =
      colSum n A k * (colSum n A k - 1) / 2 := by
  classical
  have hcol : colSum n A k =
      ((Finset.range n).filter (fun i => A i k = 1)).card :=
    sum_le_one_eq_card _ _ (fun i hi => h1 i (Finset.mem_range.mp hi))
  have hD : (grid n).filter
        (fun p => p.1 ≠ p.2 ∧ A p.1 k = 1 ∧ A p.2 k = 1) =
      ((Finset.range n).filter (fun i => A i k = 1)).offDiag := by
    ext p
    simp only [Finset.mem_filter, Finset.mem_offDiag, Finset.mem_range,
      mem_grid]
    tauto
  have hDcard : ((grid n).filter
        (fun p => p.1 ≠ p.2 ∧ A p.1 k = 1 ∧ A p.2 k = 1)).card =
      colSum n A k * (colSum n A k - 1) := by
    rw [hD, Finset.offDiag_card, sq_sub, hcol]
  have hsplit := card_split_lt_gt n
    (fun p => p.1 ≠ p.2 ∧ A p.1 k = 1 ∧ A p.2 k = 1)
    (fun p _ hq => hq.1)
  have hlt : (grid n).filter
        (fun p => p.1 < p.2 ∧ p.1 ≠ p.2 ∧ A p.1 k = 1 ∧ A p.2 k = 1) =
      (grid n).filter (fun p => p.1 < p.2 ∧ A p.1 k = 1 ∧ A p.2 k = 1) := by
    apply Finset.filter_congr
    intro p _
    constructor
    · rintro ⟨ha, _, hb⟩
      exact ⟨ha, hb⟩
    · rintro ⟨ha, hb⟩
      exact ⟨ha, Nat.ne_of_lt ha, hb⟩
  have hgt : (grid n).filter
        (fun p => p.2 < p.1 ∧ p.1 ≠ p.2 ∧ A p.1 k = 1 ∧ A p.2 k = 1) =
      (grid n).filter (fun p => p.2 < p.1 ∧ A p.1 k = 1 ∧ A p.2 k = 1) := by
    apply Finset.filter_congr
    intro p _
    constructor
    · rintro ⟨ha, _, hb⟩
      exact ⟨ha, hb⟩
    · rintro ⟨ha, hb⟩
      exact ⟨ha, (Nat.ne_of_lt ha).symm, hb⟩
  have hswap := card_filter_swap n
    (fun p => p.2 < p.1 ∧ A p.1 k = 1 ∧ A p.2 k = 1)
  have hback : (grid n).filter (fun p : Nat × Nat =>
        (p.2, p.1).2 < (p.2, p.1).1 ∧ A (p.2, p.1).1 k = 1 ∧
          A (p.2, p.1).2 k = 1) =
      (grid n).filter (fun p => p.1 < p.2 ∧ A p.1 k = 1 ∧ A p.2 k = 1) := by
    apply Finset.filter_congr
    intro p _
    constructor
    · rintro ⟨ha, hb, hc⟩
      exact ⟨ha, hc, hb⟩
    · rintro ⟨ha, hb, hc⟩
      exact ⟨ha, hc, hb⟩
  rw [hlt, hgt] at hsplit
  rw [hback] at hswap
  rw [hDcard, hswap] at hsplit
  omega

theorem syn_con_eq_sum_half (n : Nat) (M : Mat) :
    syn_con n M = (∑ k in Finset.range n,
      colSum n (chemOf M) k * (colSum n (chemOf M) k - 1)) / 2 := by
  unfold syn_con
  rw [matSum_mul_transpose, matSum_eq_sum_colSum, sum_sq_sub_sum]

theorem syn_con_eq_convTriples (n : Nat) (M : Mat)
    (hA : okCodes n M) (hd : zeroDiag n M) :
    syn_con n M = convTriples n M := by
  rw [syn_con_eq_sum_half, sum_div_two _ _
    (fun k => (Nat.even_mul_pred_self _).two_dvd), convTriples_eq_sum]
  apply Finset.sum_congr rfl
  intro k hk
  have hk' := Finset.mem_range.mp hk
  rw [← card_lt_pairs n (chemOf M) k
    (fun i hi => chemOf_le_one M i k (hA i hi k hk'))]
  apply congrArg
  apply Finset.filter_congr
  intro p hp
  have hg := (mem_grid n p).mp hp
  constructor
  · rintro ⟨hlt, hc1, hc2⟩
    refine ⟨hlt, ?_, ?_,
      (chemOf_eq_one M p.1 k).mp hc1, (chemOf_eq_one M p.2 k).mp hc2⟩
    · intro he
      rw [← he] at hc1
      rw [chemOf_diag M k (hd k hk')] at hc1
      omega
    · intro he
      rw [← he] at hc2
      rw [chemOf_diag M k (hd k hk')] at hc2
      omega
  · rintro ⟨hlt, _, _, hc1, hc2⟩
    exact ⟨hlt, (chemOf_eq_one M p.1 k).mpr hc1,
      (chemOf_eq_one M p.2 k).mpr hc2⟩

/-- Claim C2: for every square matrix over the connection alphabet with zero
diagonal, the convergent entry has found equal to the number of choices
of an unordered pair of distinct sources and a target distinct from both
with both entries to the target carrying a chemical component, this
count equals (sum(C * C.T) - sum(C)) / 2 for the chemical-only 0/1
matrix C, and tested is n * (n - 1) * (n - 2) / 2. -/
theorem II_convergent_count (n : Nat) (M : Mat)
    (hA : okCodes n M) (hd : zeroDiag n M) :
    lookupT (IIreadTally n M) "ii_con" =
      some { found := convTriples n M,
             tested := n * (n - 1) * (n - 2) / 2 } ∧
    convTriples n M =
      (matSum n (mulM n (chemOf M) (transM (chemOf M))) -
        matSum n (chemOf M)) / 2 := by
  have h : lookupT (IIreadTally n M) "ii_con" =
      some { found := syn_con n M, tested := n_con n } := rfl
  constructor
  · rw [h, syn_con_eq_convTriples n M hA hd]
    rfl
  · rw [← syn_con_eq_convTriples n M hA hd]
    rfl

/-- Claim C2 witness: the 3-node convergent-motif scenario with entries
(0,2) = 1 and (1,2) = 1 yields convergent found = 1 with tested = 3, and
divergent and chain found = 0 with divergent tested = 3. -/
theorem II_convergent_count_witness :
    lookupT (IIreadTally 3 (matOf [[0, 0, 1], [0, 0, 1], [0, 0, 0]])) "ii_con" =
      some { found := convTriples 3 (matOf [[0, 0, 1], [0, 0, 1], [0, 0, 0]]),
             tested := 3 * (3 - 1) * (3 - 2) / 2 } ∧
    convTriples 3 (matOf [[0, 0, 1], [0, 0, 1], [0, 0, 0]]) = 1 ∧
    lookupT (IIreadTally 3 (matOf [[0, 0, 1], [0, 0, 1], [0, 0, 0]])) "ii_div" =
      some { found := 0, tested := 3 } ∧
    lookupT (IIreadTally 3 (matOf [[0, 0, 1], [0, 0, 1], [0, 0, 0]])) "ii_lin" =
      some { found := 0, tested := 6 } :=
  ⟨(II_convergent_count 3 (matOf [[0, 0, 1], [0, 0, 1], [0, 0, 0]])
      (by decide) (by decide)).1, by decide, by decide, by decide⟩

/-! ## Claim C6: found does not exceed tested -/

theorem syn_chem_le (n : Nat) (M : Mat) (hd : zeroDiag n M) :
    syn_chem n M ≤ n_chem n := by
  unfold syn_chem countEq n_chem
  apply card_two_subsets_le n
  · apply filter_pred_subset_offDiag
    intro i hi
    rw [hd i hi]
    omega
  · apply filter_pred_subset_offDiag
    intro i hi
    rw [hd i hi]
    omega
  · rw [Finset.disjoint_left]
    intro p hp hq
    have h1 := (Finset.mem_filter.mp hp).2
    have h2 := (Finset.mem_filter.mp hq).2
    omega

theorem syn_elec_le (n : Nat) (M : Mat) (hd : zeroDiag n M)
    (hw : oneWayElec n M) : syn_elec n M ≤ n_elec n := by
  unfold syn_elec countEq n_elec
  have hcomb : ((grid n).filter (fun p => M p.1 p.2 = 2)).card +
      ((grid n).filter (fun p => M p.1 p.2 = 3)).card =
      ((grid n).filter (fun p => M p.1 p.2 = 2 ∨ M p.1 p.2 = 3)).card := by
    rw [Finset.filter_or, Finset.card_union_of_disjoint]
    rw [Finset.disjoint_left]
    intro p hp hq
    have h1 := (Finset.mem_filter.mp hp).2
    have h2 := (Finset.mem_filter.mp hq).2
    omega
  rw [hcomb]
  apply card_asym_le_half
  · apply filter_pred_subset_offDiag
    intro i hi
    rw [hd i hi]
    omega
  · intro p hp hq
    have h1 := (Finset.mem_filter.mp hp).2
    have h2 := (Finset.mem_filter.mp hq).2
    have hg := (mem_grid n p).mp (Finset.mem_filter.mp hp).1
    dsimp only at h2
    have hne : p.1 ≠ p.2 := by
      intro he
      rw [he, hd p.2 hg.2] at h1
      omega
    exact hw p.1 hg.1 p.2 hg.2 hne ⟨h1, h2⟩

theorem syn_c2e_le (n : Nat) (M : Mat) : syn_c2e n M ≤ n_c2e n := by
  unfold syn_c2e count3m1 n_c2e n_elec
  apply card_asym_le_half
  · apply filter_pred_subset_offDiag
    intro i _ hq
    dsimp only at hq
    omega
  · intro p hp hq
    have h1 := (Finset.mem_filter.mp hp).2
    have h2 := (Finset.mem_filter.mp hq).2
    dsimp only at h1 h2
    omega

theorem syn_c1e_le (n : Nat) (M : Mat) (hd : zeroDiag n M) :
    syn_c1e n M ≤ n_c1e n := by
  unfold syn_c1e countEq count3m1 n_c1e n_elec
  have h2 : n * (n - 1) / 2 * 2 = n * (n - 1) :=
    Nat.div_mul_cancel (Nat.even_mul_pred_self n).two_dvd
  rw [h2]
  rw [card_filter_swap n (fun p => M p.1 p.2 = 3 ∧ M p.2 p.1 = 1)]
  apply card_two_subsets_le n
  · apply filter_pred_subset_offDiag
    intro i hi
    rw [hd i hi]
    omega
  · apply filter_pred_subset_offDiag
    intro i hi
    dsimp only
    rw [hd i hi]
    omega
  · rw [Finset.disjoint_left]
    intro p hp hq
    have ha := (Finset.mem_filter.mp hp).2
    have hb := (Finset.mem_filter.mp hq).2
    dsimp only at ha hb
    omega

theorem trace_mul_self_eq_card (n : Nat) (A : Mat)
    (h1 : ∀ i, i < n → ∀ j, j < n → A i j ≤ 1) :
    trM n (mulM n A A) =
      ((grid n).filter (fun p => A p.1 p.2 = 1 ∧ A p.2 p.1 = 1)).card := by
  have hstep : trM n (mulM n A A) =
      ∑ p in grid n, A p.1 p.2 * A p.2 p.1 := by
    unfold trM mulM grid
    rw [Finset.sum_product]
  rw [hstep, sum_le_one_eq_card]
  · apply congrArg
    apply Finset.filter_congr
    intro p hp
    have hg := (mem_grid n p).mp hp
    constructor
    · intro h
      exact ⟨Nat.eq_one_of_mul_eq_one_right h, Nat.eq_one_of_mul_eq_one_left h⟩
    · rintro ⟨ha, hb⟩
      rw [ha, hb]
  · intro p hp
    have hg := (mem_grid n p).mp hp
    calc A p.1 p.2 * A p.2 p.1 ≤ 1 * 1 :=
          Nat.mul_le_mul (h1 p.1 hg.1 p.2 hg.2) (h1 p.2 hg.2 p.1 hg.1)
      _ = 1 := Nat.one_mul 1

theorem syn_c2_le (n : Nat) (M : Mat) (hA : okCodes n M)
    (hd : zeroDiag n M) : syn_c2 n M ≤ n_c2 n := by
  unfold syn_c2 n_c2
  rw [trace_mul_self_eq_card n (chemOf M)
    (fun i hi j hj => chemOf_le_one M i j (hA i hi j hj))]
  apply Nat.div_le_div_right
  calc ((grid n).filter
        (fun p => chemOf M p.1 p.2 = 1 ∧ chemOf M p.2 p.1 = 1)).card
      ≤ ((Finset.range n).offDiag).card := by
        apply Finset.card_le_card
        apply filter_pred_subset_offDiag
        intro i hi hq
        rw [chemOf_diag M i (hd i hi)] at hq
        omega
    _ = n * (n - 1) := card_offDiag_range n

theorem sum_col_mul_pred_le (n : Nat) (A : Mat)
    (h1 : ∀ i, i < n → ∀ k, k < n → A i k ≤ 1)
    (hd : ∀ i, i < n → A i i = 0) :
    ∑ k in Finset.range n, colSum n A k * (colSum n A k - 1) ≤
      n * ((n - 1) * (n - 2)) := by
  calc ∑ k in Finset.range n, colSum n A k * (colSum n A k - 1)
      ≤ ∑ _k in Finset.range n, (n - 1) * (n - 2) := by
        apply Finset.sum_le_sum
        intro k hk
        have hkn := Finset.mem_range.mp hk
        have hc := colSum_le n A k hkn (fun i hi => h1 i hi k hkn) (hd k hkn)
        exact Nat.mul_le_mul hc (by omega)
    _ = n * ((n - 1) * (n - 2)) := by
        rw [Finset.sum_const, Finset.card_range, smul_eq_mul]

theorem syn_con_le (n : Nat) (M : Mat) (hA : okCodes n M)
    (hd : zeroDiag n M) : syn_con n M ≤ n_con n := by
  rw [syn_con_eq_sum_half]
  unfold n_con
  have h := sum_col_mul_pred_le n (chemOf M)
    (fun i hi k hk => chemOf_le_one M i k (hA i hi k hk))
    (fun i hi => chemOf_diag M i (hd i hi))
  calc (∑ k in Finset.range n,
        colSum n (chemOf M) k * (colSum n (chemOf M) k - 1)) / 2
      ≤ n * ((n - 1) * (n - 2)) / 2 := Nat.div_le_div_right h
    _ = n * (n - 1) * (n - 2) / 2 := by rw [Nat.mul_assoc]

theorem syn_div_eq_sum_half (n : Nat) (M : Mat) :
    syn_div n M = (∑ k in Finset.range n,
      colSum n (transM (chemOf M)) k * (colSum n (transM (chemOf M)) k - 1)) / 2 := by
  unfold syn_div
  have h1 : matSum n (mulM n (transM (chemOf M)) (chemOf M)) =
      matSum n (mulM n (transM (chemOf M)) (transM (transM (chemOf M)))) := rfl
  have h2 : matSum n (chemOf M) = matSum n (transM (chemOf M)) := by
    unfold matSum transM
    exact Finset.sum_comm
  rw [h1, h2, matSum_mul_transpose, matSum_eq_sum_colSum, sum_sq_sub_sum]

theorem syn_div_le (n : Nat) (M : Mat) (hA : okCodes n M)
    (hd : zeroDiag n M) : syn_div n M ≤ n_div n := by
  rw [syn_div_eq_sum_half]
  unfold n_div
  have h := sum_col_mul_pred_le n (transM (chemOf M))
    (fun i hi k hk => chemOf_le_one M k i (hA k hk i hi))
    (fun i hi => chemOf_diag M i (hd i hi))
  calc (∑ k in Finset.range n, colSum n (transM (chemOf M)) k *
        (colSum n (transM (chemOf M)) k - 1)) / 2
      ≤ n * ((n - 1) * (n - 2)) / 2 := Nat.div_le_div_right h
    _ = n * (n - 1) * (n - 2) / 2 := by rw [Nat.mul_assoc]

theorem matSum_split_diag (n : Nat) (A : Mat) :
    matSum n A = trM n A + ∑ i in Finset.range n,
      ∑ k in (Finset.range n).erase i, A i k := by
  unfold matSum trM
  rw [← Finset.sum_add_distrib]
  apply Finset.sum_congr rfl
  intro i hi
  exact (Finset.add_sum_erase _ _ hi).symm

theorem syn_lin_eq (n : Nat) (M : Mat) :
    syn_lin n M = ∑ i in Finset.range n,
      ∑ k in (Finset.range n).erase i, mulM n (chemOf M) (chemOf M) i k := by
  unfold syn_lin
  rw [matSum_split_diag]
  omega

theorem mulM_entry_le (n : Nat) (A : Mat) (i k : Nat)
    (h1 : ∀ a, a < n → ∀ b, b < n → A a b ≤ 1)
    (hd : ∀ a, a < n → A a a = 0)
    (hi : i < n) (hk : k < n) (hne : i ≠ k) :
    mulM n A A i k ≤ n - 2 := by
  unfold mulM
  have hkmem : k ∈ (Finset.range n).erase i :=
    Finset.mem_erase.mpr ⟨Ne.symm hne, Finset.mem_range.mpr hk⟩
  have e1 : ∑ j in Finset.range n, A i j * A j k =
      A i i * A i k + ∑ j in (Finset.range n).erase i, A i j * A j k :=
    (Finset.add_sum_erase _ _ (Finset.mem_range.mpr hi)).symm
  have e2 : ∑ j in (Finset.range n).erase i, A i j * A j k =
      A i k * A k k + ∑ j in ((Finset.range n).erase i).erase k,
        A i j * A j k :=
    (Finset.add_sum_erase _ _ hkmem).symm
  have hbound : ∑ j in ((Finset.range n).erase i).erase k, A i j * A j k ≤
      (((Finset.range n).erase i).erase k).card • 1 := by
    apply Finset.sum_le_card_nsmul
    intro j hj
    have hjn := Finset.mem_range.mp
      (Finset.mem_of_mem_erase (Finset.mem_of_mem_erase hj))
    calc A i j * A j k ≤ 1 * 1 :=
          Nat.mul_le_mul (h1 i hi j hjn) (h1 j hjn k hk)
      _ = 1 := Nat.one_mul 1
  rw [Finset.card_erase_of_mem hkmem, Finset.card_erase_of_mem
    (Finset.mem_range.mpr hi), Finset.card_range, smul_eq_mul,
    Nat.mul_one] at hbound
  rw [e1, e2, hd i hi, hd k hk, Nat.zero_mul, Nat.mul_zero, Nat.zero_add,
    Nat.zero_add]
  omega

theorem syn_lin_le (n : Nat) (M : Mat) (hA : okCodes n M)
    (hd : zeroDiag n M) : syn_lin n M ≤ n_lin n := by
  rw [syn_lin_eq]
  unfold n_lin
  calc ∑ i in Finset.range n, ∑ k in (Finset.range n).erase i,
        mulM n (chemOf M) (chemOf M) i k
      ≤ ∑ i in Finset.range n, ∑ _k in (Finset.range n).erase i,
        (n - 2) := by
        apply Finset.sum_le_sum
        intro i hi
        apply Finset.sum_le_sum
        intro k hk
        have hkm := Finset.mem_erase.mp hk
        exact mulM_entry_le n (chemOf M) i k
          (fun a ha b hb => chemOf_le_one M a b (hA a ha b hb))
          (fun a ha => chemOf_diag M a (hd a ha))
          (Finset.mem_range.mp hi) (Finset.mem_range.mp hkm.2)
          (Ne.symm hkm.1)
    _ = n * ((n - 1) * (n - 2)) := by
        have hin : ∀ i ∈ Finset.range n,
            ∑ _k in (Finset.range n).erase i, (n - 2) = (n - 1) * (n - 2) := by
          intro i hi
          rw [Finset.sum_const, Finset.card_erase_of_mem hi,
            Finset.card_range, smul_eq_mul]
        rw [Finset.sum_congr rfl hin, Finset.sum_const, Finset.card_range,
          smul_eq_mul]
    _ = n * (n - 1) * (n - 2) := by rw [Nat.mul_assoc]

theorem lookupT_mem (t : Tally) (k : String) (e : Entry)
    (h : lookupT t k = some e) : (k, e) ∈ t := by
  induction t with
  | nil => exact absurd h (by simp [lookupT])
  | cons p rest ih =>
    obtain ⟨k', e'⟩ := p
    by_cases hk : k' = k
    · subst hk
      rw [lookupT, if_pos rfl] at h
      cases h
      exact List.mem_cons_self _ _
    · rw [lookupT, if_neg hk] at h
      exact List.mem_cons_of_mem _ (ih h)

theorem IIreadTally_goodT (n : Nat) (M : Mat) (hA : okCodes n M)
    (hd : zeroDiag n M) (hw : oneWayElec n M) :
    goodT (IIreadTally n M) := by
  intro k e hl
  have hm := lookupT_mem _ _ _ hl
  simp only [IIreadTally, List.mem_cons, List.not_mem_nil, or_false,
    Prod.mk.injEq] at hm
  rcases hm with ⟨_, rfl⟩ | ⟨_, rfl⟩ | ⟨_, rfl⟩ | ⟨_, rfl⟩ | ⟨_, rfl⟩ |
    ⟨_, rfl⟩ | ⟨_, rfl⟩ | ⟨_, rfl⟩
  · exact syn_chem_le n M hd
  · exact syn_elec_le n M hd hw
  · exact syn_c1e_le n M hd
  · exact syn_c2e_le n M
  · exact syn_c2_le n M hA hd
  · exact syn_con_le n M hA hd
  · exact syn_div_le n M hA hd
  · exact syn_lin_le n M hA hd

/-- Claim C6 counterexample: the matrix with an electrical code in both
directions lies in the connection alphabet and has a zero diagonal, yet
a single read yields ii_elec found = 2 with tested = 1, violating
found less than or equal to tested. -/
theorem II_found_le_tested_counterexample :
    okCodes 2 (matOf [[0, 2], [2, 0]]) ∧
    zeroDiag 2 (matOf [[0, 2], [2, 0]]) ∧
    lookupT (IIreadTally 2 (matOf [[0, 2], [2, 0]])) "ii_elec" =
      some { found := 2, tested := 1 } ∧
    ¬ goodT (IIreadTally 2 (matOf [[0, 2], [2, 0]])) := by
  refine ⟨by decide, by decide, by decide, ?_⟩
  intro hg
  have h := hg "ii_elec" ⟨2, 1⟩ (by decide)
  exact absurd h (by decide)

/-- Claim C6 amended: found does not exceed tested at every key of a single
read, provided additionally that no pair carries an electrical code in
both directions (the one-direction gap-junction encoding of the
dataset); and combining two tallies that each satisfy the invariant
yields a tally that satisfies it. -/
theorem II_found_le_tested_amended :
    (∀ (n : Nat) (M : Mat), okCodes n M → zeroDiag n M → oneWayElec n M →
      goodT (IIreadTally n M)) ∧
    (∀ a b : Tally, goodT a → goodT b → goodT (addT a b)) := by
  constructor
  · intro n M hA hd hw
    exact IIreadTally_goodT n M hA hd hw
  · intro a b ha hb k e hl
    rw [lookupT_addT] at hl
    cases hA : lookupT a k with
    | none =>
      cases hB : lookupT b k with
      | none =>
        rw [hA, hB] at hl
        exact absurd hl (by simp [mergeOpt])
      | some y =>
        rw [hA, hB] at hl
        simp only [mergeOpt] at hl
        cases hl
        exact hb k _ hB
    | some x =>
      cases hB : lookupT b k with
      | none =>
        rw [hA, hB] at hl
        simp only [mergeOpt] at hl
        cases hl
        exact ha k _ hA
      | some y =>
        rw [hA, hB] at hl
        simp only [mergeOpt] at hl
        cases hl
        exact Nat.add_le_add (ha k x hA) (hb k y hB)

/-- Claim C6 witness: the invariant for a concrete read and for the sum of two
copies of it. -/
theorem II_found_le_tested_amended_witness :
    goodT (IIreadTally 2 (matOf [[0, 3], [1, 0]])) ∧
    goodT (addT (IIreadTally 2 (matOf [[0, 3], [1, 0]]))
      (IIreadTally 2 (matOf [[0, 3], [1, 0]]))) := by
  have h1 := II_found_le_tested_amended.1 2 (matOf [[0, 3], [1, 0]])
    (by decide) (by decide) (by decide)
  exact ⟨h1, II_found_le_tested_amended.2 _ _ h1 h1⟩

/-! ## The cross-population counter (EIMotifCounter) -/

/-- Source `int(comb(x, 2))` of scipy: x choose 2, zero when x < 2. -/
def comb2 (x : Nat) : Nat := x * (x - 1) / 2

/-- Source `int(comb(x, 3))` of scipy: x choose 3, zero when x < 3. -/
def comb3 (x : Nat) : Nat := x * (x - 1) * (x - 2) / 6

/-- Source `np.count_nonzero(matrix)` over the p-by-q block. -/
def countNonzero (p q : Nat) (M : Mat) : Nat :=
  ((Finset.range p ×ˢ Finset.range q).filter (fun x => M x.1 x.2 ≠ 0)).card

/-- Source `np.count_nonzero(matrix[:, col])`: non-zero entries of one column. -/
def colNonzero (p : Nat) (M : Mat) (col : Nat) : Nat :=
  ((Finset.range p).filter (fun i => M i col ≠ 0)).card

/-- Source `e2i_found` of `EIMotifCounter.read_matrix`: stays zero when
ecell == 1, otherwise accumulates comb(syn, 2) over the columns. -/
def e2i_found (p q : Nat) (M : Mat) : Nat :=
  if p = 1 then 0 else ∑ col in Finset.range q, comb2 (colNonzero p M col)

/-- Source `e2i_tested`: stays zero when ecell == 1, otherwise accumulates
comb(ecell, 2) over the columns. -/
def e2i_tested (p q : Nat) : Nat :=
  if p = 1 then 0 else ∑ _col in Finset.range q, comb2 p

/-- Source `e3i_found`: as e2i_found with comb(syn, 3). -/
def e3i_found (p q : Nat) (M : Mat) : Nat :=
  if p = 1 then 0 else ∑ col in Finset.range q, comb3 (colNonzero p M col)

/-- Source `e3i_tested`: as e2i_tested with comb(ecell, 3). -/
def e3i_tested (p q : Nat) : Nat :=
  if p = 1 then 0 else ∑ _col in Finset.range q, comb3 p

/-- The dictionary produced by `EIMotifCounter.read_matrix` on a p-by-q
matrix (rows = source population, columns = target population). -/
def EIreadTally (p q : Nat) (M : Mat) : Tally :=
  [("ei", ⟨countNonzero p q M, p * q⟩),
   ("e2i", ⟨e2i_found p q M, e2i_tested p q⟩),
   ("e3i", ⟨e3i_found p q M, e3i_tested p q⟩)]

theorem comb2_of_le_one (x : Nat) (h : x ≤ 1) : comb2 x = 0 := by
  unfold comb2
  have h1 : x - 1 = 0 := by omega
  rw [h1, Nat.mul_zero]

theorem colNonzero_le (p : Nat) (M : Mat) (col : Nat) :
    colNonzero p M col ≤ p := by
  unfold colNonzero
  calc ((Finset.range p).filter (fun i => M i col ≠ 0)).card
      ≤ (Finset.range p).card := Finset.card_le_card (Finset.filter_subset _ _)
    _ = p := Finset.card_range p

/-- Claim C7: on a p-by-q cross-population matrix over 0/1, the chemical key
has found = the count of non-zero entries with tested = p * q, and the
two-source convergence key has found = the sum over target columns of
comb2 of the number of connected sources, with tested = q * comb2 p. -/
theorem EI_counts (p q : Nat) (M : Mat)
    (_hb : ∀ i, i < p → ∀ j, j < q → M i j ≤ 1) :
    lookupT (EIreadTally p q M) "ei" =
      some { found := countNonzero p q M, tested := p * q } ∧
    lookupT (EIreadTally p q M) "e2i" =
      some { found := ∑ col in Finset.range q, comb2 (colNonzero p M col),
             tested := q * comb2 p } := by
  constructor
  · rfl
  · have h : lookupT (EIreadTally p q M) "e2i" =
        some { found := e2i_found p q M, tested := e2i_tested p q } := rfl
    rw [h]
    have hfound : e2i_found p q M =
        ∑ col in Finset.range q, comb2 (colNonzero p M col) := by
      unfold e2i_found
      by_cases hp : p = 1
      · rw [if_pos hp]
        symm
        apply Finset.sum_eq_zero
        intro col _
        apply comb2_of_le_one
        calc colNonzero p M col ≤ p := colNonzero_le p M col
          _ = 1 := hp
      · rw [if_neg hp]
    have htested : e2i_tested p q = q * comb2 p := by
      unfold e2i_tested
      by_cases hp : p = 1
      · rw [if_pos hp, hp]
        rw [comb2_of_le_one 1 (le_refl 1), Nat.mul_zero]
      · rw [if_neg hp, Finset.sum_const, Finset.card_range, smul_eq_mul]
    rw [hfound, htested]

/-- Claim C7 witness: the all-ones 2-by-2 matrix has ei found = 4 of tested 4
and e2i found = 2 of tested 2. -/
theorem EI_counts_witness :
    lookupT (EIreadTally 2 2 (matOf [[1, 1], [1, 1]])) "ei" =
      some { found := 4, tested := 4 } ∧
    lookupT (EIreadTally 2 2 (matOf [[1, 1], [1, 1]])) "e2i" =
      some { found := 2, tested := 2 } := by
  have h := EI_counts 2 2 (matOf [[1, 1], [1, 1]]) (by decide)
  exact ⟨h.1.trans (by decide), h.2.trans (by decide)⟩

/-! ## Claim C8: the shape guard -/

/-- Claim C8: the recurrent counter fails on every non-square matrix with the
shape error and produces no tally. -/
theorem II_shape_guard (m : NMat) (h : m.rows ≠ m.cols) :
    IIread m = Except.error "matrix must be a square matrix!" ∧
    ∀ t : Tally, IIread m ≠ Except.ok t := by
  constructor
  · unfold IIread
    rw [if_neg h]
  · intro t hcontra
    unfold IIread at hcontra
    rw [if_neg h] at hcontra
    exact Except.noConfusion hcontra

/-- Claim C8 witness: a concrete 2-by-3 matrix. -/
theorem II_shape_guard_witness :
    IIread ⟨2, 3, matOf [[0, 1, 0], [0, 0, 1]]⟩ =
      Except.error "matrix must be a square matrix!" ∧
    IIread ⟨2, 3, matOf [[0, 1, 0], [0, 0, 1]]⟩ ≠
      Except.ok (IIreadTally 2 (matOf [[0, 1, 0], [0, 0, 1]])) :=
  ⟨(II_shape_guard ⟨2, 3, matOf [[0, 1, 0], [0, 0, 1]]⟩ (by decide)).1,
   (II_shape_guard ⟨2, 3, matOf [[0, 1, 0], [0, 0, 1]]⟩ (by decide)).2 _⟩

/-! ## Claim C10: the convergent-motif counter variant -/

/-- The dictionary produced by `IIConMotifCounter.read_matrix`: the five
keys are zeroed at construction and the read rewrites only ii_con_chem
(kept at zero) and ii_con_elec, whose tested value is the hard-coded
literal 10; the matrix content is never consulted. -/
def IIConTally : Tally :=
  [("ii_con_elec", ⟨0, 10⟩),
   ("ii_con_chem", ⟨0, 0⟩),
   ("ii_con_c2", ⟨0, 0⟩),
   ("ii_con_c1e", ⟨0, 0⟩),
   ("ii_con_c2e", ⟨0, 0⟩)]

/-- Source `IIConMotifCounter.read_matrix` with its shape guard. -/
def IIConRead (m : NMat) : Except String Tally :=
  if m.rows = m.cols then Except.ok IIConTally
  else Except.error "matrix must be a square matrix!"

/-- Claim C10: on every square matrix the convergent-motif counter variant
returns tested = 10 for its electrical-convergence key regardless of
matrix size or content, and found = 0 for both the chemical-convergence
and electrical-convergence keys. -/
theorem IICon_hardcoded (m : NMat) (h : m.rows = m.cols) :
    IIConRead m = Except.ok IIConTally ∧
    lookupT IIConTally "ii_con_elec" = some { found := 0, tested := 10 } ∧
    lookupT IIConTally "ii_con_chem" = some { found := 0, tested := 0 } := by
  refine ⟨?_, by decide, by decide⟩
  unfold IIConRead
  rw [if_pos h]

/-- Claim C10 witness: a concrete square matrix. -/
theorem IICon_hardcoded_witness :
    IIConRead ⟨2, 2, matOf [[0, 1], [1, 0]]⟩ = Except.ok IIConTally ∧
    lookupT IIConTally "ii_con_elec" = some { found := 0, tested := 10 } ∧
    lookupT IIConTally "ii_con_chem" = some { found := 0, tested := 0 } :=
  IICon_hardcoded ⟨2, 2, matOf [[0, 1], [1, 0]]⟩ rfl

/-! ## Claim C9: the slicing lambdas of utils.py -/

/-- Resolution of a Python slice endpoint against a length: a negative
endpoint counts from the end, and the result is clamped to [0, rows]. -/
def clampIdx (rows : Nat) (k : Int) : Nat :=
  if k < 0 then ((rows : Int) + k).toNat else min k.toNat rows

/-- Source `matrix[:k]`: the leading rows up to the resolved endpoint; numpy
basic slicing never raises. -/
def rowTake (m : NMat) (k : Int) : NMat :=
  ⟨clampIdx m.rows k, m.cols, m.entry⟩

/-- Source `matrix[k:]`: the rows from the resolved start on. -/
def rowDrop (m : NMat) (k : Int) : NMat :=
  ⟨m.rows - clampIdx m.rows k, m.cols,
   fun r c => m.entry (clampIdx m.rows k + r) c⟩

/-- Source `range(a, b)` of Python as a list of integers. -/
def pyRange (a b : Int) : List Int :=
  if a < b then (List.range (b - a).toNat).map (fun t : Nat => a + (t : Int))
  else []

/-- A numpy integer index into an axis of length cols is in bounds when
-cols ≤ i < cols. -/
def validIdx (cols : Nat) (i : Int) : Bool :=
  decide (-(cols : Int) ≤ i) && decide (i < (cols : Int))

/-- A negative numpy index wraps around. -/
def normIdx (cols : Nat) (i : Int) : Nat :=
  (if i < 0 then i + (cols : Int) else i).toNat

/-- Source `m[:, idxs]` with an integer list: an out-of-bounds index raises
IndexError, otherwise the listed columns are selected. -/
def fancyCols (m : NMat) (idxs : List Int) : Except String NMat :=
  if idxs.all (fun i => validIdx m.cols i) then
    Except.ok ⟨m.rows, idxs.length,
      fun r c => m.entry r (normIdx m.cols (idxs.getD c 0))⟩
  else Except.error "index out of bounds"

/-- Source `II_slice = lambda matrix, nPV: matrix[:nPV][:, range(nPV)]`. -/
def II_slice (m : NMat) (k : Int) : Except String NMat :=
  fancyCols (rowTake m k) (pyRange 0 k)

/-- Source `IE_slice = lambda matrix, nPV:
matrix[:nPV][:, range(nPV, matrix.shape[0])]`. -/
def IE_slice (m : NMat) (k : Int) : Except String NMat :=
  fancyCols (rowTake m k) (pyRange k (m.rows : Int))

/-- Source `EI_slice = lambda matrix, nPV: matrix[nPV:][:, range(nPV)]`. -/
def EI_slice (m : NMat) (k : Int) : Except String NMat :=
  fancyCols (rowDrop m k) (pyRange 0 k)

/-- Source `EE_slice = lambda matrix, nPV:
matrix[nPV:][:, range(nPV, matrix.shape[0])]`. -/
def EE_slice (m : NMat) (k : Int) : Except String NMat :=
  fancyCols (rowDrop m k) (pyRange k (m.rows : Int))

/-- Whether a call returned a value rather than raising. -/
def isOkE {ε α : Type} : Except ε α → Bool
  | Except.ok _ => true
  | Except.error _ => false

theorem rowTake_cols (m : NMat) (k : Int) : (rowTake m k).cols = m.cols := rfl

theorem rowDrop_cols (m : NMat) (k : Int) : (rowDrop m k).cols = m.cols := rfl

theorem isOkE_fancyCols (m : NMat) (idxs : List Int) :
    isOkE (fancyCols m idxs) = idxs.all (fun i => validIdx m.cols i) := by
  unfold fancyCols
  split
  · next h => rw [h]; rfl
  · next h =>
    rw [Bool.not_eq_true] at h
    rw [h]
    rfl

theorem mem_pyRange (a b x : Int) : x ∈ pyRange a b ↔ a ≤ x ∧ x < b := by
  unfold pyRange
  split
  · next hab =>
    simp only [List.mem_map, List.mem_range]
    constructor
    · rintro ⟨t, ht, rfl⟩
      omega
    · rintro ⟨h1, h2⟩
      refine ⟨(x - a).toNat, ?_, ?_⟩ <;> omega
  · next hab =>
    simp only [List.not_mem_nil, false_iff]
    omega

theorem all_pyRange (a b : Int) (f : Int → Bool) :
    (pyRange a b).all f = true ↔ ∀ x : Int, a ≤ x → x < b → f x = true := by
  rw [List.all_eq_true]
  constructor
  · intro h x h1 h2
    exact h x ((mem_pyRange a b x).mpr ⟨h1, h2⟩)
  · intro h x hx
    have hm := (mem_pyRange a b x).mp hx
    exact h x hm.1 hm.2

/-- Claim C9 counterexample: with partition index -1, outside [0, n], on a
2-by-2 matrix, all four slicing operations return sub-matrices; none
fails. -/
theorem slice_negative_counterexample :
    isOkE (II_slice ⟨2, 2, matOf [[0, 1], [1, 0]]⟩ (-1)) = true ∧
    isOkE (IE_slice ⟨2, 2, matOf [[0, 1], [1, 0]]⟩ (-1)) = true ∧
    isOkE (EI_slice ⟨2, 2, matOf [[0, 1], [1, 0]]⟩ (-1)) = true ∧
    isOkE (EE_slice ⟨2, 2, matOf [[0, 1], [1, 0]]⟩ (-1)) = true := by
  refine ⟨?_, ?_, ?_, ?_⟩ <;> rfl

/-- Claim C9 amended: for a square matrix, a partition index above n makes
the recurrent-A (II) and crossing-B-to-A (EI) slices fail on an
out-of-bounds column index while the crossing-A-to-B (IE) and
recurrent-B (EE) slices return empty-column sub-matrices without
failing; a partition index in [-n, 0) makes all four return
sub-matrices without failing. No InvalidPartition check exists. -/
theorem slice_partition_amended (m : NMat) (k : Int) (hsq : m.rows = m.cols) :
    ((m.cols : Int) < k →
      isOkE (II_slice m k) = false ∧ isOkE (EI_slice m k) = false ∧
      isOkE (IE_slice m k) = true ∧ isOkE (EE_slice m k) = true) ∧
    (-(m.cols : Int) ≤ k → k < 0 →
      isOkE (II_slice m k) = true ∧ isOkE (IE_slice m k) = true ∧
      isOkE (EI_slice m k) = true ∧ isOkE (EE_slice m k) = true) := by
  constructor
  · intro hk
    refine ⟨?_, ?_, ?_, ?_⟩
    · rw [II_slice, isOkE_fancyCols, Bool.eq_false_iff]
      intro hall
      rw [all_pyRange] at hall
      have h := hall (m.cols : Int) (by omega) (by omega)
      simp only [validIdx, rowTake_cols, Bool.and_eq_true,
        decide_eq_true_eq] at h
      omega
    · rw [EI_slice, isOkE_fancyCols, Bool.eq_false_iff]
      intro hall
      rw [all_pyRange] at hall
      have h := hall (m.cols : Int) (by omega) (by omega)
      simp only [validIdx, rowDrop_cols, Bool.and_eq_true,
        decide_eq_true_eq] at h
      omega
    · rw [IE_slice, isOkE_fancyCols, all_pyRange]
      intro x h1 h2
      exact absurd h2 (by omega)
    · rw [EE_slice, isOkE_fancyCols, all_pyRange]
      intro x h1 h2
      exact absurd h2 (by omega)
  · intro hk1 hk2
    refine ⟨?_, ?_, ?_, ?_⟩
    · rw [II_slice, isOkE_fancyCols, all_pyRange]
      intro x h1 h2
      exact absurd h2 (by omega)
    · rw [IE_slice, isOkE_fancyCols, all_pyRange]
      intro x h1 h2
      simp only [validIdx, rowTake_cols, Bool.and_eq_true,
        decide_eq_true_eq]
      omega
    · rw [EI_slice, isOkE_fancyCols, all_pyRange]
      intro x h1 h2
      exact absurd h2 (by omega)
    · rw [EE_slice, isOkE_fancyCols, all_pyRange]
      intro x h1 h2
      simp only [validIdx, rowDrop_cols, Bool.and_eq_true,
        decide_eq_true_eq]
      omega

/-- Claim C9 witness: the two regimes at concrete inputs k = 3 and k = -2 on a
2-by-2 matrix. -/
theorem slice_partition_amended_witness :
    (isOkE (II_slice ⟨2, 2, matOf [[0, 1], [1, 0]]⟩ 3) = false ∧
     isOkE (EI_slice ⟨2, 2, matOf [[0, 1], [1, 0]]⟩ 3) = false ∧
     isOkE (IE_slice ⟨2, 2, matOf [[0, 1], [1, 0]]⟩ 3) = true ∧
     isOkE (EE_slice ⟨2, 2, matOf [[0, 1], [1, 0]]⟩ 3) = true) ∧
    (isOkE (II_slice ⟨2, 2, matOf [[0, 1], [1, 0]]⟩ (-2)) = true ∧
     isOkE (IE_slice ⟨2, 2, matOf [[0, 1], [1, 0]]⟩ (-2)) = true ∧
     isOkE (EI_slice ⟨2, 2, matOf [[0, 1], [1, 0]]⟩ (-2)) = true ∧
     isOkE (EE_slice ⟨2, 2, matOf [[0, 1], [1, 0]]⟩ (-2)) = true) :=
  ⟨(slice_partition_amended ⟨2, 2, matOf [[0, 1], [1, 0]]⟩ 3 rfl).1
      (by decide),
   (slice_partition_amended ⟨2, 2, matOf [[0, 1], [1, 0]]⟩ (-2) rfl).2
      (by decide) (by decide)⟩

end Inet
